import Mathlib

set_option maxRecDepth 10000

/-!
Verification of the uint256_t 256-bit unsigned integer engine.

The value type is a pair of 128-bit limbs (upper, lower) with
value = upper * 2^128 + lower.  Limbs are embedded as `Nat` together with
the invariant `wf` (each limb below 2^128); every operation applies
`% 2^128` (limb wrap) or `% 2^256` (value wrap) exactly where the code's
fixed-width registers wrap.  Operations whose bodies live in the header
(src/include/uint256.h) are translated from that source; operations only
declared there (their definitions are in a translation unit that is not
part of src/) are modelled from the specification and are marked
"Modelled from the spec" in their doc comments.  The external 128-bit
limb primitive (uint128_t) is embedded through its contract: wrapping
arithmetic at width 128, sign-extending construction from native signed
integers, and big-endian 16-byte export.
-/

namespace Uint256

/-- The limb modulus 2^128. -/
def M128 : Nat := 2 ^ 128

/-- The value modulus 2^256. -/
def M256 : Nat := 2 ^ 256

/-- A uint256_t value: ordered pair of 128-bit limbs, value = upper * 2^128 + lower
(src/include/uint256.h lines 59-66). -/
structure U256 where
  upper : Nat
  lower : Nat
  deriving DecidableEq, Repr

/-- Well-formedness: each limb fits in 128 bits. -/
def wf (a : U256) : Prop := a.upper < M128 ∧ a.lower < M128

/-- The mathematical value of a uint256_t. -/
def toNat (a : U256) : Nat := a.upper * M128 + a.lower

/-- The constant uint256_0. -/
def uint256_0 : U256 := ⟨0, 0⟩

/-- The constant uint256_1. -/
def uint256_1 : U256 := ⟨0, 1⟩

/-- The constant uint256_max = 2^256 - 1. -/
def uint256_max : U256 := ⟨M128 - 1, M128 - 1⟩

/-- The two error kinds of the library (spec section 7): InvalidCharacter from
string parsing, DivisionByZero from division and modulo. -/
inductive UErr
  | InvalidCharacter
  | DivisionByZero
  deriving DecidableEq, Repr

/-- Modelled from the spec: uint256_t::operator<<(uint256_t) is only declared in
src/include/uint256.h line 238; the shift algorithm follows spec section 4.4.
Case analysis on the shift amount s: s >= 256 yields 0; s == 128 moves the lower
limb into the upper; s == 0 is the identity; s < 128 combines shifted limbs with
cross-boundary bit migration; 128 < s < 256 puts shifted lower-limb bits in the
upper limb. Limb shifts wrap at 128 bits. -/
def shl256 (a : U256) (s : Nat) : U256 :=
  if 256 ≤ s then uint256_0
  else if s = 128 then ⟨a.lower, 0⟩
  else if s = 0 then a
  else if s < 128 then
    ⟨((a.upper * 2 ^ s) % M128) ||| (a.lower / 2 ^ (128 - s)), (a.lower * 2 ^ s) % M128⟩
  else
    ⟨(a.lower * 2 ^ (s - 128)) % M128, 0⟩

/-- Modelled from the spec: uint256_t::operator>>(uint256_t) is only declared in
src/include/uint256.h line 255; mirror of the left shift (spec section 4.4):
s >= 256 yields 0; s == 128 moves upper into lower; s == 0 is the identity;
s < 128 shifts the upper limb right and feeds its low bits into the top of the
lower limb; 128 < s < 256 only feeds upper-limb bits down into the lower limb. -/
def shr256 (a : U256) (s : Nat) : U256 :=
  if 256 ≤ s then uint256_0
  else if s = 128 then ⟨0, a.upper⟩
  else if s = 0 then a
  else if s < 128 then
    ⟨a.upper / 2 ^ s, ((a.upper * 2 ^ (128 - s)) % M128) ||| (a.lower / 2 ^ s)⟩
  else
    ⟨0, a.upper / 2 ^ (s - 128)⟩

/-- Modelled from the spec: uint256_t::operator+(uint256_t) is only declared in
src/include/uint256.h line 341; spec section 4.5 gives the limb algorithm
verbatim: lower = a.lower + b.lower wrapping at 128 bits; carry = 1 exactly when
that wrapped sum is less than a.lower; upper = a.upper + b.upper + carry,
wrapping. -/
def add256 (a b : U256) : U256 :=
  let l := (a.lower + b.lower) % M128
  ⟨(a.upper + b.upper + (if l < a.lower then 1 else 0)) % M128, l⟩

theorem carry_split (m x y : Nat) (hx : x < m) (hy : y < m) :
    x + y = (if (x + y) % m < x then 1 else 0) * m + (x + y) % m := by
  rcases Nat.lt_or_ge (x + y) m with h | h
  · rw [Nat.mod_eq_of_lt h]
    have : ¬ x + y < x := by omega
    simp [this]
  · have hm : 0 < m := by omega
    have h2 : x + y - m < m := by omega
    have hmod : (x + y) % m = x + y - m := by
      rw [Nat.mod_eq_sub_mod h, Nat.mod_eq_of_lt h2]
    rw [hmod]
    have : x + y - m < x := by omega
    simp [this]
    omega

theorem mod_mul_split (q r m : Nat) (hm : 0 < m) (hr : r < m) :
    (q * m + r) % (m * m) = (q % m) * m + r := by
  have hq : q = m * (q / m) + q % m := (Nat.div_add_mod q m).symm
  have hlt : (q % m) * m + r < m * m := by
    have h1 : q % m < m := Nat.mod_lt _ hm
    have h2 : (q % m) * m ≤ (m - 1) * m := Nat.mul_le_mul_right m (by omega)
    have h3 : (m - 1) * m + m = m * m := by
      have h4 : (m - 1) * m + m = (m - 1 + 1) * m := by ring
      have h5 : m - 1 + 1 = m := by omega
      rw [h4, h5]
    omega
  calc (q * m + r) % (m * m)
      = ((q % m) * m + r + (q / m) * (m * m)) % (m * m) := by
        congr 1
        conv => lhs; rw [hq]
        ring
    _ = ((q % m) * m + r) % (m * m) := Nat.add_mul_mod_self_right _ _ _
    _ = (q % m) * m + r := Nat.mod_eq_of_lt hlt

theorem M256_eq : M256 = M128 * M128 := by
  show (2 : Nat) ^ 256 = 2 ^ 128 * 2 ^ 128
  rw [← pow_add]

theorem M128_pos : 0 < M128 := by
  show 0 < (2 : Nat) ^ 128
  positivity

/-- C7: for all uint256_t values a and b, a + b is below 2^256 and is congruent
to the integer sum of a and b modulo 2^256 (carry of 1 into the upper sum
exactly when the 128-bit lower sum wraps); in particular
uint256_t::max() + uint256_t(1) == uint256_t(0). -/
theorem add256_mod_correct (a b : U256) (ha : wf a) (hb : wf b) :
    toNat (add256 a b) < M256 ∧
    toNat (add256 a b) = (toNat a + toNat b) % M256 ∧
    add256 uint256_max uint256_1 = uint256_0 := by
  obtain ⟨hau, hal⟩ := ha
  obtain ⟨hbu, hbl⟩ := hb
  have hm : 0 < M128 := M128_pos
  have hcarry := carry_split M128 a.lower b.lower hal hbl
  set c : Nat := if (a.lower + b.lower) % M128 < a.lower then 1 else 0 with hc
  have hl : (a.lower + b.lower) % M128 < M128 := Nat.mod_lt _ hm
  constructor
  · show ((a.upper + b.upper + c) % M128) * M128 + (a.lower + b.lower) % M128 < M256
    rw [M256_eq]
    have h1 : (a.upper + b.upper + c) % M128 < M128 := Nat.mod_lt _ hm
    have h2 : ((a.upper + b.upper + c) % M128) * M128 ≤ (M128 - 1) * M128 :=
      Nat.mul_le_mul_right M128 (by omega)
    have h3 : (M128 - 1) * M128 + M128 = M128 * M128 := by
      have h4 : (M128 - 1) * M128 + M128 = (M128 - 1 + 1) * M128 := by ring
      have h5 : M128 - 1 + 1 = M128 := by omega
      rw [h4, h5]
    omega
  constructor
  · show ((a.upper + b.upper + c) % M128) * M128 + (a.lower + b.lower) % M128
        = (toNat a + toNat b) % M256
    have hsum : toNat a + toNat b
        = (a.upper + b.upper + c) * M128 + (a.lower + b.lower) % M128 := by
      show a.upper * M128 + a.lower + (b.upper * M128 + b.lower) = _
      calc a.upper * M128 + a.lower + (b.upper * M128 + b.lower)
          = (a.upper + b.upper) * M128 + (a.lower + b.lower) := by ring
        _ = (a.upper + b.upper) * M128 + (c * M128 + (a.lower + b.lower) % M128) := by
            rw [← hcarry]
        _ = (a.upper + b.upper + c) * M128 + (a.lower + b.lower) % M128 := by ring
    rw [hsum, M256_eq, mod_mul_split _ _ _ hm hl]
  · decide

/-- Closed instance of add256_mod_correct at a = (1, 2^128 - 1), b = (0, 1). -/
theorem add256_mod_correct_witness :
    toNat (add256 ⟨1, M128 - 1⟩ ⟨0, 1⟩) < M256 ∧
    toNat (add256 ⟨1, M128 - 1⟩ ⟨0, 1⟩) = (toNat ⟨1, M128 - 1⟩ + toNat ⟨0, 1⟩) % M256 ∧
    add256 uint256_max uint256_1 = uint256_0 :=
  add256_mod_correct ⟨1, M128 - 1⟩ ⟨0, 1⟩ (by constructor <;> decide) (by constructor <;> decide)

/-- C5: shifting any uint256_t left or right by an amount of at least 256
yields zero (and shifting is a total operation: no error is possible). -/
theorem shift_ge_256_zero (a : U256) (s : Nat) (hs : 256 ≤ s) :
    shl256 a s = uint256_0 ∧ shr256 a s = uint256_0 := by
  constructor
  · unfold shl256
    rw [if_pos hs]
  · unfold shr256
    rw [if_pos hs]

/-- Closed instance of shift_ge_256_zero at a = (3, 5), s = 300. -/
theorem shift_ge_256_zero_witness :
    shl256 ⟨3, 5⟩ 300 = uint256_0 ∧ shr256 ⟨3, 5⟩ 300 = uint256_0 :=
  shift_ge_256_zero ⟨3, 5⟩ 300 (by omega)

/-- C6: shifting by exactly 128 moves a whole limb across the boundary:
(a << 128).upper = a.lower and (a << 128).lower = 0, (a >> 128).lower = a.upper
and (a >> 128).upper = 0; in particular uint256_t(1) << 128 has upper 1 and
lower 0, and (uint256_t(1) << 128) >> 128 == 1. -/
theorem shift_128_moves_limb (a : U256) :
    (shl256 a 128).upper = a.lower ∧ (shl256 a 128).lower = 0 ∧
    (shr256 a 128).lower = a.upper ∧ (shr256 a 128).upper = 0 ∧
    shl256 uint256_1 128 = ⟨1, 0⟩ ∧
    shr256 (shl256 uint256_1 128) 128 = uint256_1 := by
  have h1 : ¬ (256 ≤ 128) := by omega
  refine ⟨?_, ?_, ?_, ?_, ?_, ?_⟩ <;> simp [shl256, shr256, uint256_1, h1]

/-- Modelled from the spec: uint256_t::bits() is only declared in
src/include/uint256.h line 468; spec section 4.8 defines it as the position of
the highest set bit plus one, 0 for the zero value.  Structurally recursive on
a fuel argument; the value itself bounds the recursion depth. -/
def bitsAux : Nat → Nat → Nat
  | 0, _ => 0
  | fuel + 1, a => if a = 0 then 0 else bitsAux fuel (a / 2) + 1

/-- Bit length of a value (uint256_t::bits(), modelled from the spec). -/
def bits (a : Nat) : Nat := bitsAux a a

theorem bitsAux_lt : ∀ fuel a, a ≤ fuel → a < 2 ^ bitsAux fuel a := by
  intro fuel
  induction fuel with
  | zero =>
    intro a hle
    have h0 : a = 0 := by omega
    subst h0
    simp [bitsAux]
  | succ fuel ih =>
    intro a hle
    by_cases h0 : a = 0
    · subst h0
      simp [bitsAux]
    · have hrec : a / 2 ≤ fuel := by omega
      have hhalf := ih (a / 2) hrec
      have hstep : bitsAux (fuel + 1) a = bitsAux fuel (a / 2) + 1 := by
        simp [bitsAux, h0]
      rw [hstep, pow_succ]
      omega

theorem bits_lt (a : Nat) : a < 2 ^ bits a := bitsAux_lt a a le_rfl

/-- Modelled from the spec: the binary long-division loop of uint256_t::divmod
(spec section 4.7), iterating from bit index i - 1 down to 0 over the dividend
a with running quotient q and remainder r; each iteration shifts q and r left
by one (the 256-bit registers wrap at 2^256), ors the current dividend bit into
r, and when r has reached the divisor b subtracts b from r and sets the low
quotient bit. -/
def divmodLoop (a b : Nat) : Nat → Nat → Nat → Nat × Nat
  | 0, q, r => (q, r)
  | i + 1, q, r =>
    let q2 := 2 * q % M256
    let r2 := (2 * r + a / 2 ^ i % 2) % M256
    if b ≤ r2 then divmodLoop a b i ((q2 + 1) % M256) (r2 - b)
    else divmodLoop a b i q2 r2

/-- Modelled from the spec: uint256_t::divmod is only declared in
src/include/uint256.h line 389; spec section 4.7: fails with DivisionByZero
when the divisor is 0; returns (0, dividend) when the divisor exceeds the
dividend; (1, 0) when they are equal; otherwise runs binary long division from
the dividend's bit length down. -/
def divmod (a b : Nat) : Except UErr (Nat × Nat) :=
  if b = 0 then .error .DivisionByZero
  else if a < b then .ok (0, a)
  else if b = a then .ok (1, 0)
  else .ok (divmodLoop a b (bits a) 0 0)

/-- uint256_t::operator/ (src/include/uint256.h lines 417-423): the quotient
component of divmod; spec: divmod is the single source of truth for /. -/
def div256v (a b : Nat) : Except UErr Nat := Except.map Prod.fst (divmod a b)

/-- uint256_t::operator% (src/include/uint256.h lines 433-439): the remainder
component of divmod. -/
def mod256v (a b : Nat) : Except UErr Nat := Except.map Prod.snd (divmod a b)

/-- uint256_t::operator/= (src/include/uint256.h lines 425-431): assigns
*this / rhs, so the stored value is exactly the binary quotient. -/
def idiv256v (a b : Nat) : Except UErr Nat := div256v a b

/-- uint256_t::operator%= (src/include/uint256.h lines 441-447): assigns
*this % rhs. -/
def imod256v (a b : Nat) : Except UErr Nat := mod256v a b

theorem divmodLoop_eq (a b : Nat) (ha : a < M256) (hb : 0 < b) :
    ∀ i, divmodLoop a b i (a / 2 ^ i / b) (a / 2 ^ i % b) = (a / b, a % b) := by
  have hM2 : M256 = 2 ^ 255 * 2 := by
    show (2 : Nat) ^ 256 = 2 ^ 255 * 2
    rw [← pow_succ]
  have h255 : a / 2 < 2 ^ 255 := by
    refine (Nat.div_lt_iff_lt_mul (by omega)).mpr ?_
    exact hM2 ▸ ha
  intro i
  induction i with
  | zero => simp [divmodLoop]
  | succ i ih =>
    have hn1 : a / 2 ^ (i + 1) = a / 2 ^ i / 2 := by
      rw [pow_succ, Nat.div_div_eq_div_mul]
    have hhalf : a / 2 ^ (i + 1) ≤ a / 2 := by
      refine Nat.div_le_div_left ?_ (by omega)
      have h12 := Nat.one_lt_two_pow' i
      omega
    have hQa : a / 2 ^ (i + 1) / b ≤ a / 2 := le_trans (Nat.div_le_self _ _) hhalf
    have hRa : a / 2 ^ (i + 1) % b ≤ a / 2 := le_trans (Nat.mod_le _ _) hhalf
    have hRb : a / 2 ^ (i + 1) % b < b := Nat.mod_lt _ hb
    have hbit : a / 2 ^ i % 2 < 2 := Nat.mod_lt _ (by omega)
    have hdm : b * (a / 2 ^ (i + 1) / b) + a / 2 ^ (i + 1) % b = a / 2 ^ (i + 1) :=
      Nat.div_add_mod _ _
    have hsplit : a / 2 ^ i = 2 * (a / 2 ^ (i + 1)) + a / 2 ^ i % 2 := by
      rw [hn1]
      exact (Nat.div_add_mod _ 2).symm
    have hq' : 2 * (a / 2 ^ (i + 1) / b) % M256 = 2 * (a / 2 ^ (i + 1) / b) :=
      Nat.mod_eq_of_lt (by rw [hM2]; omega)
    have hr' : (2 * (a / 2 ^ (i + 1) % b) + a / 2 ^ i % 2) % M256
        = 2 * (a / 2 ^ (i + 1) % b) + a / 2 ^ i % 2 :=
      Nat.mod_eq_of_lt (by rw [hM2]; omega)
    have hq1' : (2 * (a / 2 ^ (i + 1) / b) + 1) % M256 = 2 * (a / 2 ^ (i + 1) / b) + 1 :=
      Nat.mod_eq_of_lt (by rw [hM2]; omega)
    show divmodLoop a b (i + 1) (a / 2 ^ (i + 1) / b) (a / 2 ^ (i + 1) % b) = (a / b, a % b)
    simp only [divmodLoop]
    rw [hq', hr']
    by_cases hc : b ≤ 2 * (a / 2 ^ (i + 1) % b) + a / 2 ^ i % 2
    · rw [if_pos hc, hq1']
      have hsub : 2 * (a / 2 ^ (i + 1) % b) + a / 2 ^ i % 2 - b < b := by omega
      have hkey : a / 2 ^ i
          = (2 * (a / 2 ^ (i + 1) % b) + a / 2 ^ i % 2 - b)
            + (2 * (a / 2 ^ (i + 1) / b) + 1) * b := by
        have hre : (2 * (a / 2 ^ (i + 1) % b) + a / 2 ^ i % 2 - b)
            + (2 * (a / 2 ^ (i + 1) / b) + 1) * b
            = (2 * (a / 2 ^ (i + 1) % b) + a / 2 ^ i % 2)
              + 2 * (a / 2 ^ (i + 1) / b) * b := by
          rw [add_mul, one_mul]
          omega
        rw [hre]
        calc a / 2 ^ i = 2 * (a / 2 ^ (i + 1)) + a / 2 ^ i % 2 := hsplit
          _ = 2 * (b * (a / 2 ^ (i + 1) / b) + a / 2 ^ (i + 1) % b) + a / 2 ^ i % 2 := by
              rw [hdm]
          _ = (2 * (a / 2 ^ (i + 1) % b) + a / 2 ^ i % 2)
              + 2 * (a / 2 ^ (i + 1) / b) * b := by ring
      have hNdiv : a / 2 ^ i / b = 2 * (a / 2 ^ (i + 1) / b) + 1 := by
        rw [hkey, Nat.add_mul_div_right _ _ hb, Nat.div_eq_of_lt hsub, Nat.zero_add]
      have hNmod : a / 2 ^ i % b
          = 2 * (a / 2 ^ (i + 1) % b) + a / 2 ^ i % 2 - b := by
        conv_lhs => rw [hkey]
        rw [Nat.add_mul_mod_self_right, Nat.mod_eq_of_lt hsub]
      rw [hNdiv, hNmod] at ih
      exact ih
    · rw [if_neg hc]
      have hsub : 2 * (a / 2 ^ (i + 1) % b) + a / 2 ^ i % 2 < b := by omega
      have hkey : a / 2 ^ i
          = (2 * (a / 2 ^ (i + 1) % b) + a / 2 ^ i % 2)
            + 2 * (a / 2 ^ (i + 1) / b) * b := by
        calc a / 2 ^ i = 2 * (a / 2 ^ (i + 1)) + a / 2 ^ i % 2 := hsplit
          _ = 2 * (b * (a / 2 ^ (i + 1) / b) + a / 2 ^ (i + 1) % b) + a / 2 ^ i % 2 := by
              rw [hdm]
          _ = (2 * (a / 2 ^ (i + 1) % b) + a / 2 ^ i % 2)
              + 2 * (a / 2 ^ (i + 1) / b) * b := by ring
      have hNdiv : a / 2 ^ i / b = 2 * (a / 2 ^ (i + 1) / b) := by
        rw [hkey, Nat.add_mul_div_right _ _ hb, Nat.div_eq_of_lt hsub, Nat.zero_add]
      have hNmod : a / 2 ^ i % b = 2 * (a / 2 ^ (i + 1) % b) + a / 2 ^ i % 2 := by
        conv_lhs => rw [hkey]
        rw [Nat.add_mul_mod_self_right, Nat.mod_eq_of_lt hsub]
      rw [hNdiv, hNmod] at ih
      exact ih

/-- C4: for every dividend a below 2^256 and every nonzero divisor b, divmod
succeeds with the exact quotient and remainder: (a / b) * b + (a % b) == a
(computed with the engine's wrapping multiplication and addition) and
a % b < b. -/
theorem divmod_ok_exact (a b : Nat) (ha : a < M256) (hb : 0 < b) :
    ∃ q r, divmod a b = .ok (q, r) ∧ (q * b % M256 + r) % M256 = a ∧ r < b := by
  refine ⟨a / b, a % b, ?_, ?_, Nat.mod_lt _ hb⟩
  · unfold divmod
    rw [if_neg (by omega : ¬ b = 0)]
    by_cases h1 : a < b
    · rw [if_pos h1, Nat.div_eq_of_lt h1, Nat.mod_eq_of_lt h1]
    · rw [if_neg h1]
      by_cases h2 : b = a
      · subst h2
        rw [if_pos rfl, Nat.div_self hb, Nat.mod_self]
      · rw [if_neg h2]
        have h0 : a / 2 ^ bits a = 0 := Nat.div_eq_of_lt (bits_lt a)
        have hinit := divmodLoop_eq a b ha hb (bits a)
        rw [h0, Nat.zero_div, Nat.zero_mod] at hinit
        rw [hinit]
  · have hle : a / b * b ≤ a := Nat.div_mul_le_self a b
    have hsum : a / b * b + a % b = a := by
      rw [Nat.mul_comm]
      exact Nat.div_add_mod a b
    rw [Nat.mod_eq_of_lt (by omega : a / b * b < M256)]
    rw [hsum, Nat.mod_eq_of_lt ha]

/-- Closed instance of divmod_ok_exact at a = 7, b = 3. -/
theorem divmod_ok_exact_witness :
    ∃ q r, divmod 7 3 = .ok (q, r) ∧ (q * 3 % M256 + r) % M256 = 7 ∧ r < 3 :=
  divmod_ok_exact 7 3 (by decide) (by omega)

/-- C1: a / b and a % b (and the compound forms /= and %=) fail with
DivisionByZero exactly when the divisor b is zero, and succeed for every
nonzero divisor. -/
theorem div_mod_zero_error_iff (a b : Nat) :
    (div256v a b = .error .DivisionByZero ↔ b = 0) ∧
    (mod256v a b = .error .DivisionByZero ↔ b = 0) ∧
    (idiv256v a b = .error .DivisionByZero ↔ b = 0) ∧
    (imod256v a b = .error .DivisionByZero ↔ b = 0) ∧
    (b ≠ 0 → ∃ q, div256v a b = .ok q) ∧
    (b ≠ 0 → ∃ r, mod256v a b = .ok r) := by
  by_cases hb : b = 0
  · subst hb
    simp [div256v, mod256v, idiv256v, imod256v, divmod, Except.map]
  · have hok : ∃ p, divmod a b = .ok p := by
      unfold divmod
      rw [if_neg hb]
      by_cases h1 : a < b
      · rw [if_pos h1]
        exact ⟨_, rfl⟩
      · rw [if_neg h1]
        by_cases h2 : b = a
        · rw [if_pos h2]
          exact ⟨_, rfl⟩
        · rw [if_neg h2]
          exact ⟨_, rfl⟩
    obtain ⟨p, hp⟩ := hok
    simp [div256v, mod256v, idiv256v, imod256v, hp, Except.map, hb]

/-- Closed instance of div_mod_zero_error_iff: dividing 7 by 0 fails with
DivisionByZero. -/
theorem div_mod_zero_error_iff_witness :
    div256v 7 0 = Except.error UErr.DivisionByZero :=
  (div_mod_zero_error_iff 7 0).1.mpr rfl

/-- Character-to-digit decoding of uint256_t::init_from_base
(src/include/uint256.h lines 399-408): decimal digits decode to 0-9, lowercase
then uppercase letters decode case-insensitively to 10-35, and any other
character is invalid.  The source checks only that the character is
alphanumeric; it never compares the decoded digit with the base. -/
def decodeChar (c : Char) : Option Nat :=
  if '0' ≤ c ∧ c ≤ '9' then some (c.toNat - '0'.toNat)
  else if 'a' ≤ c ∧ c ≤ 'z' then some (c.toNat - 'a'.toNat + 10)
  else if 'A' ≤ c ∧ c ≤ 'Z' then some (c.toNat - 'A'.toNat + 10)
  else none

/-- The accumulation loop of uint256_t::init_from_base (src/include/uint256.h
lines 392-414).  The C++ walks pos from length-1 down to 0, so the list
processed here is the reversed string.  State: the value being built (*this)
and the current power, each a 256-bit register; every step adds digit * power
and multiplies power by the base.  The uint256_t multiplication and addition
these steps delegate to are only declared in the header; per spec sections
4.5-4.6 both wrap modulo 2^256, embedded here as value arithmetic % 2^256. -/
def initLoop (base : Nat) : List Char → Nat → Nat → Except UErr Nat
  | [], value, _ => .ok value
  | c :: rest, value, power =>
    match decodeChar c with
    | none => .error .InvalidCharacter
    | some d => initLoop base rest ((value + d * power % M256) % M256) (power * base % M256)

/-- uint256_t::init_from_base (src/include/uint256.h lines 392-414): the value
starts at 0 with power 1, and the string is consumed from its last character. -/
def init_from_base (s : List Char) (base : Nat) : Except UErr Nat :=
  initLoop base s.reverse 0 1

/-- Modelled from the spec: digit production of uint256_t::str (only declared
at src/include/uint256.h line 471); spec section 4.8: repeated divmod by the
base, least-significant digit first, at least one digit produced.  Structural
recursion on a fuel argument; the value bounds the recursion depth. -/
def toDigitsRevAux (b : Nat) : Nat → Nat → List Nat
  | 0, v => [v % b]
  | fuel + 1, v => if v / b = 0 then [v % b] else v % b :: toDigitsRevAux b fuel (v / b)

/-- The base-b digits of v, least significant first (modelled from the spec). -/
def toDigitsRev (b v : Nat) : List Nat := toDigitsRevAux b v v

/-- Modelled from the spec: the digit-to-character map of str; digits use
characters 0-9 then a-z (spec section 4.8). -/
def digitChar (d : Nat) : Char :=
  if d < 10 then Char.ofNat ('0'.toNat + d) else Char.ofNat ('a'.toNat + d - 10)

/-- Modelled from the spec: uint256_t::str with the default min_length of 0
(no padding): digits produced least-significant first, then reversed so the
most significant digit comes first. -/
def str (b v : Nat) : List Char := ((toDigitsRev b v).map digitChar).reverse

/-- Mathematical value of a least-significant-first digit list in base b. -/
def ofDigitsRev (b : Nat) : List Nat → Nat
  | [] => 0
  | d :: ds => d + b * ofDigitsRev b ds

theorem M256_pos : 0 < M256 := by
  show 0 < (2 : Nat) ^ 256
  positivity

theorem toDigitsRevAux_lt (b : Nat) (hb : 0 < b) :
    ∀ fuel v, ∀ d ∈ toDigitsRevAux b fuel v, d < b := by
  intro fuel
  induction fuel with
  | zero =>
    intro v d hd
    simp only [toDigitsRevAux, List.mem_singleton] at hd
    subst hd
    exact Nat.mod_lt _ hb
  | succ fuel ih =>
    intro v d hd
    by_cases h0 : v / b = 0
    · simp only [toDigitsRevAux, if_pos h0, List.mem_singleton] at hd
      subst hd
      exact Nat.mod_lt _ hb
    · simp only [toDigitsRevAux, if_neg h0, List.mem_cons] at hd
      rcases hd with h | h
      · subst h
        exact Nat.mod_lt _ hb
      · exact ih (v / b) d h

theorem ofDigitsRev_toDigitsRevAux (b : Nat) (hb : 2 ≤ b) :
    ∀ fuel v, v ≤ fuel → ofDigitsRev b (toDigitsRevAux b fuel v) = v := by
  intro fuel
  induction fuel with
  | zero =>
    intro v hv
    have h0 : v = 0 := by omega
    subst h0
    simp [toDigitsRevAux, ofDigitsRev]
  | succ fuel ih =>
    intro v hv
    by_cases h0 : v / b = 0
    · have hdm := Nat.div_add_mod v b
      rw [h0] at hdm
      simp only [toDigitsRevAux, if_pos h0, ofDigitsRev]
      omega
    · have hv0 : 0 < v := by
        rcases Nat.eq_zero_or_pos v with h | h
        · subst h
          simp at h0
        · exact h
      have hlt : v / b < v := Nat.div_lt_self hv0 (by omega)
      have hrec : v / b ≤ fuel := by omega
      simp only [toDigitsRevAux, if_neg h0, ofDigitsRev]
      rw [ih (v / b) hrec]
      have := Nat.div_add_mod v b
      omega

theorem decode_digitChar : ∀ d, d < 36 → decodeChar (digitChar d) = some d := by
  decide

theorem initLoop_cons_some (b : Nat) (c : Char) (rest : List Char)
    (value power d : Nat) (h : decodeChar c = some d) :
    initLoop b (c :: rest) value power
      = initLoop b rest ((value + d * power % M256) % M256) (power * b % M256) := by
  simp [initLoop, h]

theorem initLoop_map (b : Nat) :
    ∀ ds value power, (∀ d ∈ ds, d < 36) → value < M256 →
      initLoop b (ds.map digitChar) value power
        = .ok ((value + ofDigitsRev b ds * power) % M256) := by
  intro ds
  induction ds with
  | nil =>
    intro value power _ hv
    simp only [List.map_nil, initLoop, ofDigitsRev, Nat.zero_mul, Nat.add_zero]
    rw [Nat.mod_eq_of_lt hv]
  | cons d ds ih =>
    intro value power hd hv
    have hd36 : d < 36 := hd d (List.mem_cons_self d ds)
    have hrest : ∀ x ∈ ds, x < 36 := fun x hx => hd x (List.mem_cons_of_mem d hx)
    rw [List.map_cons, initLoop_cons_some b _ _ _ _ _ (decode_digitChar d hd36)]
    rw [ih _ _ hrest (Nat.mod_lt _ M256_pos)]
    congr 1
    have e1 : (value + d * power % M256) % M256 + ofDigitsRev b ds * (power * b % M256)
        ≡ value + d * power + ofDigitsRev b ds * (power * b) [MOD M256] := by
      apply Nat.ModEq.add
      · calc (value + d * power % M256) % M256
            ≡ value + d * power % M256 [MOD M256] := Nat.mod_modEq _ _
          _ ≡ value + d * power [MOD M256] := Nat.ModEq.add_left _ (Nat.mod_modEq _ _)
      · exact Nat.ModEq.mul_left _ (Nat.mod_modEq _ _)
    have e2 : value + d * power + ofDigitsRev b ds * (power * b)
        = value + (d + b * ofDigitsRev b ds) * power := by ring
    have e3 : (value + d * power % M256) % M256 + ofDigitsRev b ds * (power * b % M256)
        ≡ value + (d + b * ofDigitsRev b ds) * power [MOD M256] := by
      rw [← e2]
      exact e1
    exact e3

/-- C2 counterexample: the decoded digit of the character 2 is 2, which is not
less than the base 2, yet parsing the string 2 in base 2 does not fail: it
succeeds with value 2.  The source never compares the decoded digit with the
base. -/
theorem init_from_base_no_base_check :
    decodeChar '2' = some 2 ∧ ¬ (2 : Nat) < 2 ∧
    init_from_base ['2'] 2 ≠ .error UErr.InvalidCharacter ∧
    init_from_base ['2'] 2 = .ok 2 := by
  have hok : init_from_base ['2'] 2 = Except.ok 2 := rfl
  refine ⟨by decide, by omega, ?_, hok⟩
  rw [hok]
  intro h
  exact Except.noConfusion h

theorem initLoop_error_iff (b : Nat) :
    ∀ l value power,
      (initLoop b l value power = .error UErr.InvalidCharacter
        ↔ ∃ c ∈ l, decodeChar c = none) ∧
      ((∀ c ∈ l, decodeChar c ≠ none) → ∃ n, initLoop b l value power = .ok n) := by
  intro l
  induction l with
  | nil =>
    intro value power
    constructor
    · simp [initLoop]
    · intro _
      exact ⟨value, rfl⟩
  | cons c rest ih =>
    intro value power
    cases hdc : decodeChar c with
    | none =>
      constructor
      · constructor
        · intro _
          exact ⟨c, List.mem_cons_self c rest, hdc⟩
        · intro _
          simp [initLoop, hdc]
      · intro hall
        exact absurd hdc (hall c (List.mem_cons_self c rest))
    | some d =>
      have hstep := initLoop_cons_some b c rest value power d hdc
      obtain ⟨ih1, ih2⟩ := ih ((value + d * power % M256) % M256) (power * b % M256)
      constructor
      · rw [hstep, ih1]
        constructor
        · rintro ⟨x, hx, hxd⟩
          exact ⟨x, List.mem_cons_of_mem c hx, hxd⟩
        · rintro ⟨x, hx, hxd⟩
          rcases List.mem_cons.mp hx with h | h
          · subst h
            rw [hdc] at hxd
            exact absurd hxd (by simp)
          · exact ⟨x, h, hxd⟩
      · intro hall
        rw [hstep]
        exact ih2 fun x hx => hall x (List.mem_cons_of_mem c hx)

/-- C2 (amended): construction from a digit string fails with InvalidCharacter
exactly when some character of the string is not alphanumeric; the decoded
digit value is never compared with the base, so digits at or above the base are
accepted and contribute digit * base^position to the (wrapping) value. -/
theorem init_from_base_error_iff (s : List Char) (b : Nat) :
    (init_from_base s b = .error UErr.InvalidCharacter
      ↔ ∃ c ∈ s, decodeChar c = none) ∧
    ((∀ c ∈ s, decodeChar c ≠ none) → ∃ n, init_from_base s b = .ok n) := by
  obtain ⟨h1, h2⟩ := initLoop_error_iff b s.reverse 0 1
  constructor
  · rw [init_from_base, h1]
    constructor
    · rintro ⟨c, hc, hcd⟩
      exact ⟨c, List.mem_reverse.mp hc, hcd⟩
    · rintro ⟨c, hc, hcd⟩
      exact ⟨c, List.mem_reverse.mpr hc, hcd⟩
  · intro hall
    exact h2 fun c hc => hall c (List.mem_reverse.mp hc)

/-- Closed instance of init_from_base_error_iff: a string holding the
non-alphanumeric character commercial-at fails with InvalidCharacter. -/
theorem init_from_base_error_iff_witness :
    init_from_base ['@'] 16 = Except.error UErr.InvalidCharacter :=
  (init_from_base_error_iff ['@'] 16).1.mpr ⟨'@', by decide, by decide⟩

/-- C8: string conversion and parsing round-trip: for every base b with
2 <= b <= 36 and every value v below 2^256, parsing str(v, b) in base b
succeeds and returns v. -/
theorem str_roundtrip (b v : Nat) (hb2 : 2 ≤ b) (hb36 : b ≤ 36) (hv : v < M256) :
    init_from_base (str b v) b = .ok v := by
  unfold str init_from_base
  rw [List.reverse_reverse]
  have hdb : ∀ d ∈ toDigitsRev b v, d < b := toDigitsRevAux_lt b (by omega) v v
  have hd36 : ∀ d ∈ toDigitsRev b v, d < 36 := fun d h => lt_of_lt_of_le (hdb d h) hb36
  rw [initLoop_map b _ 0 1 hd36 M256_pos]
  unfold toDigitsRev
  rw [ofDigitsRev_toDigitsRevAux b hb2 v v le_rfl]
  rw [Nat.mul_one, Nat.zero_add, Nat.mod_eq_of_lt hv]

/-- Closed instance of str_roundtrip: the value 255 printed in base 16 parses
back to 255. -/
theorem str_roundtrip_witness : init_from_base (str 16 255) 16 = .ok 255 :=
  str_roundtrip 16 255 (by omega) (by omega) (by decide)

/-- The 128-bit limb's construction from a native integer (external uint128_t
contract; spec section 4.1: native signed inputs are widened with sign
extension, i.e. taken modulo 2^128). -/
def cast128 (v : Int) : Nat := (v % (2 : Int) ^ 128).toNat

/-- C++ integral conversion of a native integer to uint64_t: the value
modulo 2^64. -/
def cast64 (v : Int) : Nat := (v % (2 : Int) ^ 64).toNat

/-- uint256_t's constructor from a native integer (src/include/uint256.h lines
88-102): lower = the integer widened to the 128-bit limb (sign-extending),
upper = all ones when the input is negative, else 0 — the 256-bit two's
complement encoding. -/
def uint256_ofInt (v : Int) : U256 := ⟨if v < 0 then M128 - 1 else 0, cast128 v⟩

/-- uint256_t::operator+(T) for a native integer operand
(src/include/uint256.h lines 343-346): the operand is cast to the 128-bit limb
type only and added to the lower limb; the carry (detected by
wrapped-sum < old lower) is added to the upper limb.  Nothing else reaches the
upper limb, even for negative operands. -/
def addT (a : U256) (v : Int) : U256 :=
  ⟨(a.upper + (if (a.lower + cast128 v) % M128 < a.lower then 1 else 0)) % M128,
   (a.lower + cast128 v) % M128⟩

/-- uint256_t::operator+=(T) (src/include/uint256.h lines 351-354): delegates
to *this += uint256_t(rhs); the uint256_t compound overload is only declared in
the header and per the spec assigns the result of the binary uint256_t
addition. -/
def iaddT (a : U256) (v : Int) : U256 := add256 a (uint256_ofInt v)

/-- Wrapping 128-bit limb subtraction x - y (external limb contract). -/
def subm (x y : Nat) : Nat := (x + (M128 - y % M128)) % M128

/-- Modelled from the spec: uint256_t::operator-(uint256_t) is only declared
in src/include/uint256.h line 357; spec section 4.5: lower = a.lower - b.lower
wrapping, borrow = 1 exactly when a.lower < b.lower, upper =
a.upper - b.upper - borrow wrapping. -/
def sub256 (a b : U256) : U256 :=
  ⟨subm (subm a.upper b.upper) (if a.lower % M128 < b.lower % M128 then 1 else 0),
   subm a.lower b.lower⟩

/-- uint256_t::operator-(T) for a native integer operand
(src/include/uint256.h lines 359-362): lower = lower - rhs on the limb
(wrapping, rhs cast to the limb), borrow detected by wrapped-difference >
old lower, subtracted from the upper limb. -/
def subT (a : U256) (v : Int) : U256 :=
  ⟨subm a.upper (if a.lower < subm a.lower (cast128 v) then 1 else 0),
   subm a.lower (cast128 v)⟩

/-- uint256_t::operator-=(T) (src/include/uint256.h lines 367-370): assigns
*this - uint256_t(rhs), the full 256-bit binary subtraction of the
sign-extended operand. -/
def isubT (a : U256) (v : Int) : U256 := sub256 a (uint256_ofInt v)

/-- C3 counterexample: at a = 0 and native operand -1, the compound forms
a += -1 and a -= -1 (which sign-extend the operand to 256 bits) disagree with
the binary operators a + -1 and a - -1 (which cast the operand to 128 bits
only): 0 += -1 gives 2^256 - 1 while 0 + -1 gives 2^128 - 1. -/
theorem compound_not_binary_for_negative :
    iaddT ⟨0, 0⟩ (-1) ≠ addT ⟨0, 0⟩ (-1) ∧
    isubT ⟨0, 0⟩ (-1) ≠ subT ⟨0, 0⟩ (-1) := by
  constructor
  · intro h
    have h2 : (iaddT ⟨0, 0⟩ (-1)).upper = (addT ⟨0, 0⟩ (-1)).upper := by rw [h]
    have h3 : (iaddT ⟨0, 0⟩ (-1)).upper = M128 - 1 := by decide
    have h4 : (addT ⟨0, 0⟩ (-1)).upper = 0 := by decide
    rw [h3, h4] at h2
    have h5 : (0 : Nat) < M128 - 1 := by decide
    omega
  · intro h
    have h2 : (isubT ⟨0, 0⟩ (-1)).upper = (subT ⟨0, 0⟩ (-1)).upper := by rw [h]
    have h3 : (isubT ⟨0, 0⟩ (-1)).upper = 0 := by decide
    have h4 : (subT ⟨0, 0⟩ (-1)).upper = M128 - 1 := by decide
    rw [h3, h4] at h2
    have h5 : (0 : Nat) < M128 - 1 := by decide
    omega

/-- C3 (amended): the compound assignments agree with the binary operators for
uint256_t right-hand sides (the compound overloads assign the binary result by
definition) and for every nonnegative native integer operand; for negative
signed operands the binary plus and minus templates truncate the operand to
128 bits while the compound forms use its full 256-bit sign extension, so they
can disagree. -/
theorem compound_eq_binary_nonneg (a : U256) (v : Int) (ha : wf a)
    (h0 : 0 ≤ v) (h64 : v < 2 ^ 64) :
    iaddT a v = addT a v ∧ isubT a v = subT a v := by
  obtain ⟨hau, hal⟩ := ha
  have h128 : v < (2 : Int) ^ 128 := lt_trans h64 (by norm_num)
  have hcast : cast128 v = v.toNat := by
    unfold cast128
    rw [Int.emod_eq_of_lt h0 h128]
  have hcastM : ((M128 : Nat) : Int) = (2 : Int) ^ 128 := by
    unfold M128
    push_cast
    try ring
  have hn : v.toNat < M128 := by
    refine (Int.toNat_lt h0).mpr ?_
    rw [hcastM]
    exact h128
  have hofInt : uint256_ofInt v = ⟨0, v.toNat⟩ := by
    unfold uint256_ofInt
    rw [if_neg (by omega : ¬ v < 0), hcast]
  constructor
  · show add256 a (uint256_ofInt v) = addT a v
    rw [hofInt]
    show (⟨(a.upper + 0 + (if (a.lower + v.toNat) % M128 < a.lower then 1 else 0)) % M128,
        (a.lower + v.toNat) % M128⟩ : U256) = addT a v
    unfold addT
    rw [hcast, Nat.add_zero]
  · show sub256 a (uint256_ofInt v) = subT a v
    rw [hofInt]
    have hsub0 : subm a.upper 0 = a.upper := by
      unfold subm
      rw [Nat.zero_mod, Nat.sub_zero, Nat.add_mod_right]
      exact Nat.mod_eq_of_lt hau
    have hborrow : (if a.lower % M128 < v.toNat % M128 then (1 : Nat) else 0)
        = (if a.lower < subm a.lower v.toNat then (1 : Nat) else 0) := by
      unfold subm
      rw [Nat.mod_eq_of_lt hal, Nat.mod_eq_of_lt hn]
      by_cases hcmp : v.toNat ≤ a.lower
      · have hl2 : (a.lower + (M128 - v.toNat)) % M128 = a.lower - v.toNat := by
          have h1 : a.lower + (M128 - v.toNat) = a.lower - v.toNat + M128 := by omega
          rw [h1, Nat.add_mod_right]
          exact Nat.mod_eq_of_lt (by omega)
        rw [hl2, if_neg (by omega), if_neg (by omega)]
      · have hl2 : (a.lower + (M128 - v.toNat)) % M128 = a.lower + (M128 - v.toNat) :=
          Nat.mod_eq_of_lt (by omega)
        rw [hl2, if_pos (by omega), if_pos (by omega)]
    show (⟨subm (subm a.upper 0) (if a.lower % M128 < v.toNat % M128 then 1 else 0),
        subm a.lower v.toNat⟩ : U256) = subT a v
    unfold subT
    rw [hcast, hsub0, hborrow]

/-- Closed instance of compound_eq_binary_nonneg at a = (0, 5), v = 3. -/
theorem compound_eq_binary_nonneg_witness :
    iaddT ⟨0, 5⟩ 3 = addT ⟨0, 5⟩ 3 ∧ isubT ⟨0, 5⟩ 3 = subT ⟨0, 5⟩ 3 :=
  compound_eq_binary_nonneg ⟨0, 5⟩ 3 ⟨by decide, by decide⟩ (by decide) (by decide)

/-- uint256_t::operator==(T) for a native integer operand
(src/include/uint256.h lines 294-297): true iff the upper limb is zero and the
lower limb equals the operand cast to the 128-bit limb (sign-extending). -/
def memberEqT (a : U256) (v : Int) : Bool :=
  (a.upper == 0) && (a.lower == cast128 v)

/-- The free operator==(T, uint256_t) (src/include/uint256.h lines 566-569):
true iff the upper limb is zero and the operand cast to uint64_t equals the
lower limb. -/
def freeEqT (v : Int) (a : U256) : Bool :=
  (a.upper == 0) && (cast64 v == a.lower)

/-- C10 counterexample: with a = uint256_t(2^64 - 1) and the native operand
-1, the member comparison a == -1 is false (it compares against the 128-bit
sign extension 2^128 - 1) but the free comparison -1 == a is true (it
truncates the operand to uint64_t first). -/
theorem mixed_eq_not_symmetric :
    memberEqT ⟨0, 2 ^ 64 - 1⟩ (-1) = false ∧ freeEqT (-1) ⟨0, 2 ^ 64 - 1⟩ = true := by
  constructor
  · decide
  · decide

/-- C10 (amended): the member and free mixed-type equality comparisons agree
for every nonnegative native integer operand; for negative signed operands the
member comparison sign-extends to 128 bits while the free comparison truncates
to 64 bits, so they can disagree. -/
theorem mixed_eq_symmetric_nonneg (a : U256) (v : Int) (h0 : 0 ≤ v)
    (h64 : v < 2 ^ 64) :
    memberEqT a v = freeEqT v a := by
  have h128 : v < (2 : Int) ^ 128 := lt_trans h64 (by norm_num)
  have hc128 : cast128 v = v.toNat := by
    unfold cast128
    rw [Int.emod_eq_of_lt h0 h128]
  have hc64 : cast64 v = v.toNat := by
    unfold cast64
    rw [Int.emod_eq_of_lt h0 h64]
  unfold memberEqT freeEqT
  rw [hc128, hc64]
  have hsymm : (a.lower == v.toNat) = (v.toNat == a.lower) := by
    by_cases h : a.lower = v.toNat
    · rw [h]
    · have h1 : (a.lower == v.toNat) = false := by
        simpa using h
      have h2 : (v.toNat == a.lower) = false := by
        simpa using (Ne.symm h)
      rw [h1, h2]
  rw [hsymm]

/-- Closed instance of mixed_eq_symmetric_nonneg at a = (0, 5), v = 5. -/
theorem mixed_eq_symmetric_nonneg_witness :
    memberEqT ⟨0, 5⟩ 5 = freeEqT 5 ⟨0, 5⟩ :=
  mixed_eq_symmetric_nonneg ⟨0, 5⟩ 5 (by decide) (by decide)

/-- Big-endian byte sequence of length n for a value v: byte i holds the bits
at positions 8*(n-1-i) up to 8*(n-1-i)+7. -/
def bigEndianBytes (n v : Nat) : List Nat :=
  (List.range n).map fun i => v / 2 ^ (8 * (n - 1 - i)) % 256

/-- uint128_t::export_bits by the external limb contract (spec sections 1 and
4.8): the limb's 16 bytes, most significant first. -/
def export_bits128 (x : Nat) : List Nat := bigEndianBytes 16 x

/-- uint256_t::export_bits (src/include/uint256.h lines 147-153): the upper
limb's bytes are appended first, then the lower limb's, independent of host
endianness. -/
def export_bits (a : U256) : List Nat :=
  export_bits128 a.upper ++ export_bits128 a.lower

theorem upper_byte (u l k : Nat) (hl : l < 2 ^ 128) :
    (u * 2 ^ 128 + l) / 2 ^ (128 + k) = u / 2 ^ k := by
  rw [pow_add, ← Nat.div_div_eq_div_mul]
  congr 1
  rw [Nat.mul_comm u (2 ^ 128), Nat.mul_add_div (by positivity)]
  rw [Nat.div_eq_of_lt hl, Nat.add_zero]

theorem lower_byte (u l k : Nat) (hk : k ≤ 120) :
    (u * 2 ^ 128 + l) / 2 ^ k % 256 = l / 2 ^ k % 256 := by
  have h128 : (2 : Nat) ^ 128 = 2 ^ k * (2 ^ (120 - k) * 256) := by
    have h256 : (256 : Nat) = 2 ^ 8 := by norm_num
    rw [h256, ← pow_add, ← pow_add]
    congr 1
    omega
  have hsplit : u * 2 ^ 128 + l = l + u * (2 ^ (120 - k) * 256) * 2 ^ k := by
    rw [h128]
    ring
  rw [hsplit, Nat.add_mul_div_right _ _ (by positivity : 0 < 2 ^ k)]
  rw [← Nat.mul_assoc]
  exact Nat.add_mul_mod_self_right _ _ _

/-- C9: export_bits() is exactly 32 bytes, the big-endian byte sequence of the
256-bit value, with the 16 bytes of the upper limb preceding the 16 bytes of
the lower limb. -/
theorem export_bits_spec (a : U256) (ha : wf a) :
    (export_bits a).length = 32 ∧
    export_bits a = bigEndianBytes 32 (toNat a) ∧
    export_bits a = export_bits128 a.upper ++ export_bits128 a.lower := by
  obtain ⟨hau, hal⟩ := ha
  have hal' : a.lower < 2 ^ 128 := hal
  refine ⟨?_, ?_, rfl⟩
  · simp [export_bits, export_bits128, bigEndianBytes]
  · have hsplit : bigEndianBytes 32 (toNat a)
        = (List.range 16).map (fun i => toNat a / 2 ^ (8 * (32 - 1 - i)) % 256)
          ++ (List.range 16).map (fun j => toNat a / 2 ^ (8 * (32 - 1 - (16 + j))) % 256) := by
      unfold bigEndianBytes
      rw [show List.range 32 = List.range (16 + 16) from rfl, List.range_add]
      rw [List.map_append, List.map_map]
      rfl
    rw [hsplit]
    unfold export_bits export_bits128 bigEndianBytes
    congr 1
    · apply List.map_congr_left
      intro i hi
      have hi16 : i < 16 := List.mem_range.mp hi
      have ht : toNat a = a.upper * 2 ^ 128 + a.lower := rfl
      rw [ht, show 8 * (32 - 1 - i) = 128 + 8 * (16 - 1 - i) from by omega,
        upper_byte a.upper a.lower _ hal']
    · apply List.map_congr_left
      intro j hj
      have hj16 : j < 16 := List.mem_range.mp hj
      have ht : toNat a = a.upper * 2 ^ 128 + a.lower := rfl
      rw [ht, show 8 * (32 - 1 - (16 + j)) = 8 * (16 - 1 - j) from by omega,
        lower_byte a.upper a.lower _ (by omega)]

/-- Closed instance of export_bits_spec at a = (1, 2). -/
theorem export_bits_spec_witness :
    (export_bits ⟨1, 2⟩).length = 32 ∧
    export_bits ⟨1, 2⟩ = bigEndianBytes 32 (toNat ⟨1, 2⟩) ∧
    export_bits ⟨1, 2⟩ = export_bits128 (1 : Nat) ++ export_bits128 (2 : Nat) :=
  export_bits_spec ⟨1, 2⟩ ⟨by decide, by decide⟩

end Uint256
